import Mathlib

/-!
Verification of the line-editing / history / completion core of the
`apython` terminal REPL front-end, shallowly embedded in Lean.

Python strings are modelled as `List Char` (sequences of codepoints),
Python `int` as `Int`, Python lists as Lean lists.  Fallible operations
(raising `IndexError` / `ValueError` / `StopIteration` at the modelled
boundary) return `Option` / an error sum.  Helper functions `pyGet`,
`pySliceTo`, `pySliceFrom` reproduce Python's indexing and slicing
semantics, including negative indices and clamping.
-/

/-- Python indexing `xs[k]` for `k : Int`: a negative index counts from the
end; out-of-range indices raise `IndexError`, modelled as `none`. -/
def pyGet {α : Type} (xs : List α) (k : Int) : Option α :=
  let k' := if k < 0 then k + xs.length else k
  if k' < 0 then none else xs.get? k'.toNat

/-- Python slice `xs[:k]` for `k : Int`: a negative endpoint counts from the
end; the result is clamped to the actual list (never an error). -/
def pySliceTo {α : Type} (xs : List α) (k : Int) : List α :=
  let k' := if k < 0 then (xs.length : Int) + k else k
  xs.take k'.toNat

/-- Python slice `xs[k:]` for `k : Int`: a negative start counts from the
end; the result is clamped to the actual list (never an error). -/
def pySliceFrom {α : Type} (xs : List α) (k : Int) : List α :=
  let k' := if k < 0 then (xs.length : Int) + k else k
  xs.drop k'.toNat

/-- The ASCII whitespace characters recognised by Python's `str.lstrip()`
(space, tab, newline, carriage return, vertical tab, form feed).  The source
lines handled by the edit buffer contain only ASCII whitespace, so the
Unicode extension of `str.isspace` is not modelled. -/
def pyIsSpace (c : Char) : Bool :=
  c = ' ' ∨ c = '\t' ∨ c = '\n' ∨ c = '\r' ∨ c = '\x0b' ∨ c = '\x0c'

/-!
## Edit buffer (`bpython/cli.py`, class `Editable`)

The buffer state is the logical line `s` and the cursor offset `cpos`
measured from the right end of `s` (`0` = cursor at the end).  Screen
handles (`self.scr`, `self.iy/ix`) are display-side state and are not part
of the logical buffer model.
-/

structure Editable where
  s : List Char
  cpos : Nat
  deriving Repr, DecidableEq

/-- `Editable.addstr` (cli.py:752-759): splice a string into the current
line at the cursor position.

    if not self.cpos:
        self.s += s
    else:
        l = len(self.s)
        self.s = self.s[:l - self.cpos] + s + self.s[l - self.cpos:]
-/
def Editable.addstr (st : Editable) (t : List Char) : Editable :=
  if st.cpos = 0 then
    { st with s := st.s ++ t }
  else
    let l : Int := st.s.length
    { st with s := pySliceTo st.s (l - st.cpos) ++ t ++ pySliceFrom st.s (l - st.cpos) }

/-- `Editable.is_start_of_the_line` (cli.py:835-842): true when nothing but
whitespace precedes the cursor, computed as `not self.s.lstrip()`. -/
def Editable.is_start_of_the_line (st : Editable) : Bool :=
  (st.s.dropWhile pyIsSpace).isEmpty

/-- `Editable.is_empty_line` (cli.py:831-833): `not self.s`. -/
def Editable.is_empty_line (st : Editable) : Bool :=
  st.s.isEmpty

/-- `Editable.is_beginning_of_the_line` (cli.py:823-825): `self.cpos == len(self.s)`. -/
def Editable.is_beginning_of_the_line (st : Editable) : Bool :=
  st.cpos = st.s.length

/-- `Editable.backward_delete_character` (cli.py:1011-1030).  Returns the
count `n` the source returns (`none` on the early no-op returns) together
with the new buffer state.

    if self.is_empty_line or self.is_beginning_of_the_line:
        return
    n = 1
    if not self.cpos:
        if self.is_start_of_the_line and delete_tabs:
            n = len(self.s) % self.config.tab_length
            if not n:
                n = self.config.tab_length
        self.s = self.s[:-n]
    else:
        self.s = self.s[:-self.cpos - 1] + self.s[-self.cpos:]
    return n

The curses-coordinate guard `if x == self.ix and y == self.iy: return`
compares the physical cursor cell with the cell where input started; with a
non-empty line and the cursor at its end (the configurations the claims
range over) every character occupies at least one cell, so the two cells
differ and the guard never fires; it is display-side state and is omitted
here.  `clear_wrapped_lines()` and `print_line()` are pure screen output. -/
def Editable.backward_delete_character (tab_length : Nat) (st : Editable)
    (delete_tabs : Bool) : Option Nat × Editable :=
  if st.is_empty_line ∨ st.is_beginning_of_the_line then
    (none, st)
  else if st.cpos = 0 then
    let n : Nat :=
      if st.is_start_of_the_line ∧ delete_tabs then
        if st.s.length % tab_length = 0 then tab_length else st.s.length % tab_length
      else 1
    (some n, { st with s := pySliceTo st.s (-(n : Int)) })
  else
    (some 1, { st with s := pySliceTo st.s (-(st.cpos : Int) - 1) ++
                            pySliceFrom st.s (-(st.cpos : Int)) })

/-! Basic facts about the Python slicing helpers. -/

theorem pySliceTo_nonneg {α : Type} (xs : List α) (k : Int) (h : 0 ≤ k) :
    pySliceTo xs k = xs.take k.toNat := by
  unfold pySliceTo
  simp [not_lt.mpr h]

theorem pySliceTo_neg_nat {α : Type} (xs : List α) (n : Nat) (hn : 0 < n) :
    pySliceTo xs (-(n : Int)) = xs.take (xs.length - n) := by
  unfold pySliceTo
  have hlt : -(n : Int) < 0 := by omega
  simp only [hlt, if_true]
  congr 1
  omega

theorem pySliceFrom_nonneg {α : Type} (xs : List α) (k : Int) (h : 0 ≤ k) :
    pySliceFrom xs k = xs.drop k.toNat := by
  unfold pySliceFrom
  simp [not_lt.mpr h]

/-- C3: for `0 ≤ cpos ≤ len(s)`, `addstr t` produces
`s[:len(s)-cpos] + t + s[len(s)-cpos:]` and leaves `cpos` unchanged. -/
theorem addstr_splices (st : Editable) (t : List Char)
    (h : st.cpos ≤ st.s.length) :
    (st.addstr t).s
      = st.s.take (st.s.length - st.cpos) ++ t ++ st.s.drop (st.s.length - st.cpos)
    ∧ (st.addstr t).cpos = st.cpos := by
  obtain ⟨s, cpos⟩ := st
  simp only at h
  unfold Editable.addstr
  by_cases h0 : cpos = 0
  · subst h0
    simp
  · have hk : (0 : Int) ≤ (s.length : Int) - cpos := by
      omega
    simp only [h0, if_false]
    rw [pySliceTo_nonneg _ _ hk, pySliceFrom_nonneg _ _ hk]
    have htn : ((s.length : Int) - (cpos : Int)).toNat = s.length - cpos := by
      omega
    rw [htn]
    constructor <;> trivial

/-- Witness for C3: concrete scenario 1 — buffer `"foo"`, cursor offset `0`,
`insert("bar")` yields `"foobar"` with the cursor offset still `0`. -/
theorem addstr_splices_witness :
    (Editable.mk ['f', 'o', 'o'] 0).cpos ≤ (Editable.mk ['f', 'o', 'o'] 0).s.length
    ∧ ((Editable.mk ['f', 'o', 'o'] 0).addstr ['b', 'a', 'r']).s
        = (Editable.mk ['f', 'o', 'o'] 0).s.take 3 ++ ['b', 'a', 'r']
            ++ (Editable.mk ['f', 'o', 'o'] 0).s.drop 3
    ∧ ((Editable.mk ['f', 'o', 'o'] 0).addstr ['b', 'a', 'r']).cpos = 0 :=
  ⟨by decide,
   (addstr_splices (Editable.mk ['f', 'o', 'o'] 0) ['b', 'a', 'r'] (by decide)).1,
   (addstr_splices (Editable.mk ['f', 'o', 'o'] 0) ['b', 'a', 'r'] (by decide)).2⟩

/-- C4: with whitespace-only text, cursor offset `0` and a positive
`tab_length`, `backward_delete_character` with `delete_tabs` removes
`n = len(s) % tab_length` trailing characters (`tab_length` if the
remainder is zero), clamped to the characters present, and returns `n`. -/
theorem backward_delete_dedents (tab_length : Nat) (st : Editable)
    (hws : st.s.all pyIsSpace) (hc : st.cpos = 0) (ht : 0 < tab_length) :
    let n : Nat := if st.s.length % tab_length = 0 then tab_length
                   else st.s.length % tab_length
    (Editable.backward_delete_character tab_length st true).2.s
        = st.s.take (st.s.length - n)
    ∧ (Editable.backward_delete_character tab_length st true).2.s.length
        = st.s.length - n
    ∧ (Editable.backward_delete_character tab_length st true).2.cpos = st.cpos
    ∧ (st.s ≠ [] →
        (Editable.backward_delete_character tab_length st true).1 = some n) := by
  intro n
  obtain ⟨s, cpos⟩ := st
  simp only at hws hc n
  subst hc
  unfold Editable.backward_delete_character
  by_cases hemp : s = []
  · subst hemp
    simp [Editable.is_empty_line, n]
  · have hlen : 0 < s.length := List.length_pos.mpr hemp
    have hne : (Editable.mk s 0).is_empty_line = false := by
      simp [Editable.is_empty_line, hemp]
    have hnb : (Editable.mk s 0).is_beginning_of_the_line = false := by
      simp only [Editable.is_beginning_of_the_line]
      simp only [decide_eq_false_iff_not]
      omega
    have hstart : (Editable.mk s 0).is_start_of_the_line = true := by
      simp only [Editable.is_start_of_the_line]
      have hd : s.dropWhile pyIsSpace = [] := by
        apply List.dropWhile_eq_nil_iff.mpr
        intro x hx
        exact List.all_eq_true.mp hws x hx
      simp [hd]
    have hn0 : 0 < n := by
      by_cases hmod : s.length % tab_length = 0
      · simpa [n, hmod] using ht
      · simp only [n, hmod, if_false]
        omega
    simp only [hne, hnb, Bool.false_eq_true, or_self, if_false, if_true, hstart,
      and_self, eq_self_iff_true]
    rw [pySliceTo_neg_nat s n hn0]
    refine ⟨?_, ?_, ?_, ?_⟩ <;>
      first
      | trivial
      | (intro _; trivial)
      | (simp only [List.length_take]; omega)

/-- Witness for C4: concrete scenario 4 — `tab_length = 4`, buffer of two
spaces, cursor at the end: both spaces are removed in one call. -/
theorem backward_delete_dedents_witness :
    ((Editable.mk [' ', ' '] 0).s.all pyIsSpace = true
      ∧ (Editable.mk [' ', ' '] 0).cpos = 0 ∧ 0 < 4)
    ∧ (Editable.backward_delete_character 4 (Editable.mk [' ', ' '] 0) true).2.s
        = (Editable.mk [' ', ' '] 0).s.take 0 :=
  ⟨⟨by decide, rfl, by decide⟩,
   (backward_delete_dedents 4 (Editable.mk [' ', ' '] 0) (by decide) rfl
      (by decide)).1⟩

/-!
## History store (`bpython/history.py`, class `History`)

`index` is a Python `int` (it can exceed `len(entries)` after the boundary
slip modelled below), entries and the saved line are strings.  `back` /
`forward` model `History.back(start=False, search=False)` and
`History.forward(start=False, search=False)`: the plain (non-search,
non-start) stepping path of `back_iter` / `forward_iter`, whose `iterable`
is `itertools.count(1)` and whose caller takes only the first yielded pair.
-/

structure History where
  entries : List (List Char)
  index : Int
  saved_line : List Char
  allow_duplicates : Bool
  ignore_blank : Bool
  deriving Repr, DecidableEq

/-- `line.rstrip('\n')`: strip trailing newline characters. -/
def rstripNewline (line : List Char) : List Char :=
  (line.reverse.dropWhile (· = '\n')).reverse

/-- `History.append` (history.py:82-92).

    line = line.rstrip('\n')
    if line or not self.ignore_blank:
        if not self.allow_duplicates:
            try:
                while True:
                    self.entries.remove(line)
            except ValueError:
                pass
        self.entries.append(line)

The `while True: remove` loop deletes the first occurrence of `line`
repeatedly until none is left, i.e. it removes every occurrence while
keeping the other entries in order — `List.filter (· ≠ line)`. -/
def History.append (h : History) (line : List Char) : History :=
  let line := rstripNewline line
  if ¬line.isEmpty ∨ ¬h.ignore_blank then
    let entries := if ¬h.allow_duplicates then h.entries.filter (· ≠ line) else h.entries
    { h with entries := entries ++ [line] }
  else h

/-- `History.enter` (history.py:94-95): `self.saved_line = line`. -/
def History.enter (h : History) (line : List Char) : History :=
  { h with saved_line := line }

/-- `History.back(start=False, search=False)` (history.py:109-111 via
back_iter, history.py:120-138).  The first loop iteration sets
`self.index = 1 + original` and evaluates `self.entries[-self.index]`:

  - in range: that pair is yielded, `back()` returns the entry;
  - `IndexError`: the loop breaks, and with non-empty entries the trailing
    `yield (self.entries[-self.index], self.index)` re-evaluates the same
    out-of-range subscript, so the `IndexError` escapes the generator
    (modelled as `none`); with empty entries `(saved_line, index)` is
    yielded instead.

In every path the mutated `index = original + 1` persists. -/
def History.back (h : History) : Option (List Char) × History :=
  let idx := h.index + 1
  let h' := { h with index := idx }
  match pyGet h.entries (-idx) with
  | some e => (some e, h')
  | none =>
      if h.entries.length > 0 then
        (pyGet h.entries (-idx), h')
      else
        (some h.saved_line, h')

/-- `History.forward(start=False, search=False)` (history.py:113-118 via
forward_iter, history.py:140-154).  With `original > 0` the first iteration
sets `self.index = original - 1`; if that is still positive the entry
`self.entries[-self.index]` is yielded (an out-of-range subscript would
raise, modelled `none`), otherwise the generator ends and the caller's
`except StopIteration` returns `""`.  With `original <= 0` the loop body
never runs and `""` is returned with the index unchanged. -/
def History.forward (h : History) : Option (List Char) × History :=
  if h.index > 0 then
    let idx := h.index - 1
    let h' := { h with index := idx }
    if idx > 0 then
      (pyGet h.entries (-idx), h')
    else
      (some [], h')
  else
    (some [], h)

/-- C1 (code evaluated at the failing input): with entries `["a"]` and
`index = 1` (the oldest and only entry in view), `back()` raises
`IndexError` — the clamp branch of `back_iter` re-evaluates
`entries[-2]` — and leaves `index = 2 > len(entries)`, breaking both the
claimed idempotence and the `0 <= index <= len(entries)` invariant. -/
theorem back_at_oldest_raises :
    (History.mk [['a']] 1 [] true true).back
      = (none, History.mk [['a']] 2 [] true true) := by
  decide

/-- C2 (counterexample): with entries `["a"]`, `index = 1` and a saved line
`"x"` captured by `enter()`, `forward()` returns the empty string, not the
saved line. -/
theorem forward_returns_empty_not_saved :
    ((History.mk [['a']] 1 [] true true).enter [Char.ofNat 120]).forward
        = (some [], History.mk [['a']] 0 [Char.ofNat 120] true true)
    ∧ some ((History.mk [['a']] 1 [] true true).enter [Char.ofNat 120]).saved_line
        ≠ (((History.mk [['a']] 1 [] true true).enter [Char.ofNat 120]).forward).1 := by
  decide

/-- C2 (amended): for every history whose saved line was captured by
`enter()` and whose index is `1`, `forward()` in non-search, non-start mode
steps the index down to `0` and returns the empty string (which coincides
with the saved line only when that line is empty). -/
theorem forward_from_one_returns_empty (h : History) (line : List Char)
    (hidx : h.index = 1) :
    (h.enter line).forward = (some [], { h with saved_line := line, index := 0 }) := by
  unfold History.forward History.enter
  simp only [hidx]
  norm_num

/-- Witness for C2's amended theorem at a concrete input. -/
theorem forward_from_one_returns_empty_witness :
    (History.mk [['a'], ['b']] 1 [] true true).index = 1
    ∧ ((History.mk [['a'], ['b']] 1 [] true true).enter [' ']).forward
        = (some [], History.mk [['a'], ['b']] 0 [' '] true true) :=
  ⟨rfl, forward_from_one_returns_empty (History.mk [['a'], ['b']] 1 [] true true) [' '] rfl⟩

/-- C5: `append` ignores blank lines when `ignore_blank` is set; otherwise
it removes all prior occurrences first when duplicates are disallowed (so
the line ends up exactly once, as the most recent entry), and plainly
appends when duplicates are allowed. -/
theorem append_spec (h : History) (line : List Char) :
    ((rstripNewline line).isEmpty = true ∧ h.ignore_blank = true →
        (h.append line).entries = h.entries)
    ∧ (¬((rstripNewline line).isEmpty = true ∧ h.ignore_blank = true) →
        h.allow_duplicates = false →
        (h.append line).entries
            = h.entries.filter (· ≠ rstripNewline line) ++ [rstripNewline line]
        ∧ (h.append line).entries.count (rstripNewline line) = 1
        ∧ (h.append line).entries.getLast? = some (rstripNewline line))
    ∧ (¬((rstripNewline line).isEmpty = true ∧ h.ignore_blank = true) →
        h.allow_duplicates = true →
        (h.append line).entries = h.entries ++ [rstripNewline line]) := by
  refine ⟨?_, ?_, ?_⟩
  · rintro ⟨hbl, hig⟩
    unfold History.append
    rw [if_neg]
    push_neg
    exact ⟨by simpa using hbl, hig⟩
  · intro hcond hdup
    have hor : ¬(rstripNewline line).isEmpty = true ∨ ¬h.ignore_blank = true := by
      by_cases hbl : (rstripNewline line).isEmpty = true
      · exact Or.inr fun hig => hcond ⟨hbl, hig⟩
      · exact Or.inl hbl
    have hnd : ¬h.allow_duplicates = true := by
      rw [hdup]
      exact Bool.false_ne_true
    have hentries : (h.append line).entries
        = h.entries.filter (· ≠ rstripNewline line) ++ [rstripNewline line] := by
      unfold History.append
      rw [if_pos hor, if_pos hnd]
    refine ⟨hentries, ?_, ?_⟩
    · rw [hentries, List.count_append]
      have hz : (h.entries.filter (· ≠ rstripNewline line)).count (rstripNewline line)
          = 0 := by
        apply List.count_eq_zero.mpr
        intro hmem
        have h2 := (List.mem_filter.mp hmem).2
        simp at h2
      rw [hz]
      simp
    · rw [hentries]
      simp
  · intro hcond hdup
    have hor : ¬(rstripNewline line).isEmpty = true ∨ ¬h.ignore_blank = true := by
      by_cases hbl : (rstripNewline line).isEmpty = true
      · exact Or.inr fun hig => hcond ⟨hbl, hig⟩
      · exact Or.inl hbl
    unfold History.append
    rw [if_pos hor, if_neg]
    rw [hdup]
    exact fun hk => hk rfl

/-- Witness for C5 at a concrete input: with duplicates disallowed,
appending `"a"` to `["a", "b", "a"]` leaves `["b", "a"]`. -/
theorem append_spec_witness :
    ((History.mk [['a'], ['b'], ['a']] 0 [] false true).append ['a']).entries
      = [['b'], ['a']] := by
  have h := (append_spec (History.mk [['a'], ['b'], ['a']] 0 [] false true) ['a']).2.1
    (by decide) rfl
  have he := h.1
  simpa using he


/-!
## Completion match cursor (`bpython/repl.py`, class `MatchesIterator`)

`index` is a Python `int` (`-1` = no selection yet); `is_wait` is the
one-shot flag set by `wait()` that makes the following `next()` re-deliver
the current candidate without stepping.  The source field `matches` is
called `candidates` here because `matches` is a reserved word in Lean.
-/

structure MatchesIterator where
  current_word : String
  candidates : List String
  index : Int
  is_wait : Bool
  deriving Repr, DecidableEq

/-- The two ways `current()` / the step methods can raise: the
`ValueError('No current match.')` "no selection" condition, and an
out-of-range subscript (`IndexError`). -/
inductive MatchErr where
  | noSelection
  | indexError
  deriving Repr, DecidableEq

/-- `MatchesIterator.current` (repl.py:164-167).

    if self.index == -1:
        raise ValueError('No current match.')
    return self.matches[self.index]
-/
def MatchesIterator.current (m : MatchesIterator) : Except MatchErr String :=
  if m.index = -1 then Except.error MatchErr.noSelection
  else
    match pyGet m.candidates m.index with
    | some s => Except.ok s
    | none => Except.error MatchErr.indexError

/-- `MatchesIterator.next` (repl.py:172-177).  The returned pair is the
yielded candidate (`none` when the subscript — or the `% 0` on an empty
candidate list — raises) together with the mutated iterator.

    if self.is_wait:
        self.is_wait = False
    else:
        self.index = (self.index + 1) % len(self.matches)
    return self.matches[self.index]

Lean's `Int.emod` agrees with Python `%` for a positive modulus. -/
def MatchesIterator.next (m : MatchesIterator) : Option String × MatchesIterator :=
  if m.is_wait then
    let m' := { m with is_wait := false }
    (pyGet m'.candidates m'.index, m')
  else if m.candidates.length = 0 then
    (none, m)
  else
    let idx := (m.index + 1) % (m.candidates.length : Int)
    let m' := { m with index := idx }
    (pyGet m'.candidates idx, m')

/-- `MatchesIterator.previous` (repl.py:179-185).

    self.is_wait = False
    if self.index <= 0:
        self.index = len(self.matches)
    self.index -= 1
    return self.matches[self.index]
-/
def MatchesIterator.previous (m : MatchesIterator) : Option String × MatchesIterator :=
  let idx := (if m.index ≤ 0 then (m.candidates.length : Int) else m.index) - 1
  let m' := { m with index := idx, is_wait := false }
  (pyGet m'.candidates idx, m')

/-- `MatchesIterator.update` (repl.py:187-192): replace the candidate set
and drop the selection only when the anchor word changed. -/
def MatchesIterator.update (m : MatchesIterator) (current_word : String)
    (cands : List String) : MatchesIterator :=
  if current_word ≠ m.current_word then
    { m with current_word := current_word, candidates := cands, index := -1 }
  else m

/-- The post-state of one `next()` call. -/
def MatchesIterator.nextState (m : MatchesIterator) : MatchesIterator :=
  (m.next).2

/-- The documented state invariant: the cursor is either `-1` (no selection
yet) or a valid position into the candidate list. -/
def MatchesIterator.inv (m : MatchesIterator) : Prop :=
  m.index = -1 ∨ (0 ≤ m.index ∧ m.index < m.candidates.length)

instance (m : MatchesIterator) : Decidable m.inv := by
  unfold MatchesIterator.inv
  infer_instance

theorem pyGet_nonneg {α : Type} (xs : List α) (k : Int) (h0 : 0 ≤ k) :
    pyGet xs k = xs.get? k.toNat := by
  unfold pyGet
  simp [not_lt.mpr h0]

theorem emod_add_one_right (a n : Int) : (a % n + 1) % n = (a + 1) % n := by
  conv_rhs => rw [Int.add_emod]
  rw [Int.add_emod (a % n) 1, Int.emod_emod_of_dvd a dvd_rfl]

theorem emod_add_self_right (a n : Int) : (a + n) % n = a % n := by
  have h := Int.add_mul_emod_self_left (a := a) (b := n) (c := 1)
  rw [mul_one] at h
  exact h

/-- One non-wait step on a non-empty candidate list just advances the index
cyclically. -/
theorem nextState_closed (m : MatchesIterator) (h1 : m.candidates ≠ [])
    (h2 : m.is_wait = false) :
    m.nextState = { m with index := (m.index + 1) % (m.candidates.length : Int) } := by
  unfold MatchesIterator.nextState MatchesIterator.next
  have hl : ¬m.candidates.length = 0 := by
    intro hz
    exact h1 (List.length_eq_zero.mp hz)
  simp [h2, hl]

/-- Iterated non-wait steps: after `k + 1` calls the index is the start
index advanced by `k + 1`, modulo the candidate count. -/
theorem nextState_iterate (w : String) (ms : List String) (i : Int)
    (h1 : ms ≠ []) :
    ∀ k : Nat, MatchesIterator.nextState^[k + 1] (MatchesIterator.mk w ms i false)
      = MatchesIterator.mk w ms ((i + (k + 1)) % (ms.length : Int)) false := by
  intro k
  induction k with
  | zero =>
    simp only [Nat.zero_add, Function.iterate_one]
    rw [nextState_closed _ h1 rfl]
    simp
  | succ k ih =>
    rw [Function.iterate_succ_apply', ih]
    rw [nextState_closed _ h1 rfl]
    simp only [MatchesIterator.mk.injEq, true_and, and_true]
    rw [emod_add_one_right]
    congr 1
    push_cast
    ring

/-- C6: with the wait flag clear and a non-empty candidate list, the
`len(candidates) + 1`-st consecutive `next()` call returns the same
candidate and produces the same iterator state (in particular the same
index) as the very first `next()` call. -/
theorem next_cyclic (m : MatchesIterator) (h1 : m.candidates ≠ [])
    (h2 : m.is_wait = false) :
    (MatchesIterator.nextState^[m.candidates.length] m).next = m.next := by
  obtain ⟨w, ms, i, wt⟩ := m
  simp only at h1 h2
  subst h2
  have hL : 0 < ms.length := List.length_pos.mpr h1
  obtain ⟨L, hLk⟩ : ∃ L, ms.length = L + 1 := ⟨ms.length - 1, by omega⟩
  have hiter := nextState_iterate w ms i h1 L
  simp only at hiter ⊢
  rw [hLk, hiter]
  unfold MatchesIterator.next
  have hl : ¬ms.length = 0 := by omega
  simp only [Bool.false_eq_true, if_false, hl]
  have hmod : ((i + ((L : Int) + 1)) % (ms.length : Int) + 1) % (ms.length : Int)
      = (i + 1) % (ms.length : Int) := by
    rw [emod_add_one_right]
    have hrw : i + ((L : Int) + 1) + 1 = (i + 1) + (ms.length : Int) := by
      rw [hLk]
      push_cast
      ring
    rw [hrw, emod_add_self_right]
  rw [hmod]

/-- Witness for C6 at a concrete input: three candidates, four `next()`
calls land where the first one did. -/
theorem next_cyclic_witness :
    ((MatchesIterator.mk "" ["a", "b", "c"] (-1) false).candidates ≠ ([] : List String)
      ∧ (MatchesIterator.mk "" ["a", "b", "c"] (-1) false).is_wait = false)
    ∧ (MatchesIterator.nextState^[3] (MatchesIterator.mk "" ["a", "b", "c"] (-1) false)).next
        = (MatchesIterator.mk "" ["a", "b", "c"] (-1) false).next :=
  ⟨⟨by decide, rfl⟩,
   next_cyclic (MatchesIterator.mk "" ["a", "b", "c"] (-1) false) (by decide) rfl⟩

theorem pyGet_some_of_lt {α : Type} (xs : List α) (k : Int) (h0 : 0 ≤ k)
    (h1 : k < xs.length) : ∃ a, pyGet xs k = some a := by
  rw [pyGet_nonneg _ _ h0]
  have hlt : k.toNat < xs.length := by omega
  exact ⟨xs.get ⟨k.toNat, hlt⟩, List.get?_eq_get hlt⟩

/-- C7 (counterexample): on the iterator `⟨"", ["a"], -1, is_wait := true⟩`
— non-empty candidate list, no selection, wait flag set — `next()` succeeds
(it re-delivers `matches[-1]`, the last candidate, without stepping), yet
`current()` on the resulting state still fails with the "no selection"
condition, because the wait-flag path leaves `index = -1`. -/
theorem current_fails_after_wait_next :
    ((MatchesIterator.mk "" ["a"] (-1) true).next).1 = some "a"
    ∧ (((MatchesIterator.mk "" ["a"] (-1) true).next).2).current
        = Except.error MatchErr.noSelection := by
  constructor
  · rfl
  · rfl

/-- C7 (amended): `current()` fails with the "no selection" condition
exactly when `index = -1`; after a `next()` with the wait flag clear on a
non-empty candidate list, and after a `previous()` from a state satisfying
the index invariant (`index = -1` or a valid position), `current()`
returns the candidate now selected, without error. -/
theorem current_iff_selection (m : MatchesIterator) :
    (m.current = Except.error MatchErr.noSelection ↔ m.index = -1)
    ∧ (m.candidates ≠ [] → m.is_wait = false →
        ∃ c, (m.next).1 = some c ∧ ((m.next).2).current = Except.ok c)
    ∧ (m.candidates ≠ [] → m.inv →
        ∃ c, (m.previous).1 = some c ∧ ((m.previous).2).current = Except.ok c) := by
  refine ⟨?_, ?_, ?_⟩
  · unfold MatchesIterator.current
    by_cases hidx : m.index = -1
    · simp [hidx]
    · rw [if_neg hidx]
      constructor
      · intro hcontra
        exfalso
        cases hget : pyGet m.candidates m.index <;> rw [hget] at hcontra <;>
          simp at hcontra
      · intro hcontra
        exact absurd hcontra hidx
  · intro h1 h2
    have hL : 0 < m.candidates.length := List.length_pos.mpr h1
    have hl : ¬m.candidates.length = 0 := by omega
    unfold MatchesIterator.next
    simp only [h2, Bool.false_eq_true, if_false, hl]
    have hge : (0 : Int) ≤ (m.index + 1) % (m.candidates.length : Int) :=
      Int.emod_nonneg _ (by exact_mod_cast hl)
    have hlt : (m.index + 1) % (m.candidates.length : Int) < (m.candidates.length : Int) :=
      Int.emod_lt_of_pos _ (by exact_mod_cast hL)
    obtain ⟨c, hc⟩ := pyGet_some_of_lt m.candidates _ hge hlt
    refine ⟨c, by simpa using hc, ?_⟩
    show MatchesIterator.current _ = _
    unfold MatchesIterator.current
    dsimp only
    rw [if_neg (by omega), hc]
  · intro h1 h2
    have hL : 0 < m.candidates.length := List.length_pos.mpr h1
    unfold MatchesIterator.previous
    dsimp only
    set idx := (if m.index ≤ 0 then (m.candidates.length : Int) else m.index) - 1 with hidx
    have hbound : 0 ≤ idx ∧ idx < (m.candidates.length : Int) := by
      rw [hidx]
      by_cases hle : m.index ≤ 0
      · rw [if_pos hle]
        omega
      · rw [if_neg hle]
        rcases h2 with hm1 | ⟨hge2, hlt2⟩
        · omega
        · omega
    obtain ⟨hb1, hb2⟩ := hbound
    obtain ⟨c, hc⟩ := pyGet_some_of_lt m.candidates idx hb1 hb2
    refine ⟨c, hc, ?_⟩
    show MatchesIterator.current _ = _
    unfold MatchesIterator.current
    dsimp only
    rw [if_neg (by omega), hc]

/-- Witness for C7's amended theorem at a concrete input: after one
`next()` on a fresh two-candidate iterator, `current()` returns the
selected candidate. -/
theorem current_iff_selection_witness :
    ((MatchesIterator.mk "" ["a", "b"] (-1) false).current
        = Except.error MatchErr.noSelection ↔ (-1 : Int) = -1)
    ∧ (∃ c, ((MatchesIterator.mk "" ["a", "b"] (-1) false).next).1 = some c
        ∧ (((MatchesIterator.mk "" ["a", "b"] (-1) false).next).2).current
            = Except.ok c) :=
  ⟨(current_iff_selection (MatchesIterator.mk "" ["a", "b"] (-1) false)).1,
   (current_iff_selection (MatchesIterator.mk "" ["a", "b"] (-1) false)).2.1
     (by decide) rfl⟩

/-- C10: `previous()` on a fresh iterator (`index = -1`) over a non-empty
candidate list selects the last candidate: the index becomes
`len(candidates) - 1` (a valid position), the last candidate is returned,
and `current()` then succeeds with that same candidate. -/
theorem previous_fresh_selects_last (m : MatchesIterator) (h1 : m.index = -1)
    (h2 : m.candidates ≠ []) :
    (m.previous).2.index = (m.candidates.length : Int) - 1
    ∧ 0 ≤ (m.previous).2.index
    ∧ (m.previous).2.index < (m.candidates.length : Int)
    ∧ (m.previous).1 = m.candidates.getLast?
    ∧ ∃ c, (m.previous).1 = some c ∧ ((m.previous).2).current = Except.ok c := by
  have hL : 0 < m.candidates.length := List.length_pos.mpr h2
  have hle : m.index ≤ 0 := by omega
  unfold MatchesIterator.previous
  dsimp only
  rw [if_pos hle]
  have hge : (0 : Int) ≤ (m.candidates.length : Int) - 1 := by omega
  have hlt : (m.candidates.length : Int) - 1 < (m.candidates.length : Int) := by omega
  refine ⟨rfl, hge, hlt, ?_, ?_⟩
  · rw [pyGet_nonneg _ _ hge, List.get?_eq_getElem?, List.getLast?_eq_getElem?]
    congr 1
    omega
  · obtain ⟨c, hc⟩ := pyGet_some_of_lt m.candidates _ hge hlt
    refine ⟨c, hc, ?_⟩
    show MatchesIterator.current _ = _
    unfold MatchesIterator.current
    dsimp only
    rw [if_neg (by omega), hc]

/-- Witness for C10 at a concrete input. -/
theorem previous_fresh_selects_last_witness :
    ((MatchesIterator.mk "w" ["x", "y", "z"] (-1) false).previous).2.index = 2
    ∧ ((MatchesIterator.mk "w" ["x", "y", "z"] (-1) false).previous).1
        = (["x", "y", "z"] : List String).getLast? := by
  have h := previous_fresh_selects_last (MatchesIterator.mk "w" ["x", "y", "z"] (-1) false)
    rfl (by decide)
  exact ⟨h.1, h.2.2.2.1⟩

/-!
## Key dispatch table (`bpython/key/dispatch_table.py`)

`DispatchTable._get_precise_keyname` (dispatch_table.py:127-137):

    if ambiguous_keyname in self._keymap:
        return ambiguous_keyname
    elif ambiguous_keyname in self._alias_keymap:
        keyname = self._alias_keymap[ambiguous_keyname]
        return self._get_precise_keyname(keyname)
    else:
        return ambiguous_keyname

The keymap is modelled by its key set (only membership is consulted) and
the alias map as an association list with unique keys (a Python dict).
The method is recursive with no cycle detection, so its semantics is the
big-step relation `Resolves` (a derivation exists exactly when the
recursion terminates), together with the fuel-indexed evaluator
`getPreciseKeyname` for running it on concrete inputs. -/

/-- Big-step semantics of `_get_precise_keyname`: `Resolves km al x r`
holds exactly when the Python recursion, started on `x`, terminates and
returns `r`. -/
inductive Resolves (km : List String) (al : List (String × String)) :
    String → String → Prop where
  | canonical (x : String) (h : x ∈ km) : Resolves km al x x
  | step (x y r : String) (h1 : x ∉ km) (h2 : al.lookup x = some y)
      (h3 : Resolves km al y r) : Resolves km al x r
  | pass (x : String) (h1 : x ∉ km) (h2 : al.lookup x = none) :
      Resolves km al x x

/-- Fuel-indexed evaluator for `_get_precise_keyname`; `none` means the
recursion did not finish within `fuel` calls. -/
def getPreciseKeyname (km : List String) (al : List (String × String)) :
    Nat → String → Option String
  | 0, _ => none
  | fuel + 1, x =>
      if x ∈ km then some x
      else
        match al.lookup x with
        | some y => getPreciseKeyname km al fuel y
        | none => some x

/-- C8 (counterexample): with an empty keymap and the single alias cycle
`a → a`, the resolution recursion never terminates on `"a"` — there is no
result it resolves to, refuting "resolution terminates for every keymap and
alias map, including ones whose alias chains contain cycles". -/
theorem resolve_diverges_on_cycle :
    ¬∃ r, Resolves [] [("a", "a")] "a" r := by
  rintro ⟨r, hres⟩
  have key : ∀ x r, Resolves [] [("a", "a")] x r → x ≠ "a" := by
    intro x r h
    induction h with
    | canonical x hmem => cases hmem
    | step x y r h1 h2 h3 ih =>
      intro hx
      subst hx
      have hy : "a" = y := by
        simpa using h2
      exact ih hy.symm
    | pass x h1 h2 =>
      intro hx
      subst hx
      simp at h2
  exact key "a" r hres rfl

/-- C8 (amended): resolution terminates on every identifier whose alias
chain reaches — within a bounded number of hops — either a canonical key
or an identifier with no alias entry, and in the latter pass-through case
the identifier comes back unchanged; a chain that never reaches such an
identifier (a cycle outside the keymap) recurses forever. -/
theorem resolve_of_bounded_chain (km : List String) (al : List (String × String))
    (x r : String) (fuel : Nat)
    (h : getPreciseKeyname km al fuel x = some r) :
    Resolves km al x r
    ∧ (x ∉ km → al.lookup x = none → r = x) := by
  constructor
  · induction fuel generalizing x with
    | zero => cases h
    | succ fuel ih =>
      unfold getPreciseKeyname at h
      by_cases hmem : x ∈ km
      · rw [if_pos hmem] at h
        cases h
        exact Resolves.canonical _ hmem
      · rw [if_neg hmem] at h
        cases hlook : al.lookup x with
        | some y =>
          rw [hlook] at h
          exact Resolves.step x y r hmem hlook (ih y h)
        | none =>
          rw [hlook] at h
          cases h
          exact Resolves.pass _ hmem hlook
  · intro hmem hlook
    cases fuel with
    | zero => cases h
    | succ fuel =>
      unfold getPreciseKeyname at h
      rw [if_neg hmem, hlook] at h
      cases h
      rfl

/-- Witness for C8's amended theorem at a concrete input: the alias
`"C-a"` resolves to the canonical key `"a"` in two hops, and the unknown
identifier `"zz"` passes through unchanged. -/
theorem resolve_of_bounded_chain_witness :
    (getPreciseKeyname ["a"] [("C-a", "a")] 2 "C-a" = some "a"
      ∧ Resolves ["a"] [("C-a", "a")] "C-a" "a")
    ∧ (getPreciseKeyname ["a"] [("C-a", "a")] 1 "zz" = some "zz"
      ∧ ("zz" ∉ ["a"] → (([("C-a", "a")] : List (String × String)).lookup "zz") = none
          → "zz" = "zz")) :=
  ⟨⟨by decide,
    (resolve_of_bounded_chain ["a"] [("C-a", "a")] "C-a" "a" 2 (by decide)).1⟩,
   ⟨by decide,
    (resolve_of_bounded_chain ["a"] [("C-a", "a")] "zz" "zz" 1 (by decide)).2⟩⟩

/-!
## Popup layout engine (`bpython/cli.py`, class `ListBox`,
`_prepare_v_items`, cli.py:616-662)

The loop state is the tuple of local variables of `_prepare_v_items`
(`v_items`, `rows`, `cols`, `wl`, the loop-local `v_index`) plus a
`trunc` flag recording whether either truncation branch (the overflow
check on line 637) ever fired.  `max_w`/`max_h` are the popup bounds,
`ho` is `self.height_offset`, `idx0` is `self.index` (the selection index
synced from the matches iterator), and the loop runs over `self.items`
(the candidate strings, already rewritten by `_trim_items` when `nosep`
is unset).  Python `//` is floor division, `Int.fdiv`. -/

structure LBAcc where
  v_items : List (List Char)
  rows : Int
  cols : Int
  wl : Int
  v_index : Int
  trunc : Bool
  deriving Repr, DecidableEq

/-- `cols = ((self.max_w - 2) // (wl + 1)) or 1` (cli.py:631): Python `or`
replaces a zero quotient by 1 (a negative quotient is kept as is). -/
def lbColsOf (max_w wl : Int) : Int :=
  let c := Int.fdiv (max_w - 2) (wl + 1)
  if c = 0 then 1 else c

/-- `rows = len(v_items) // cols; if cols * rows < len(v_items): rows += 1`
(cli.py:632-635). -/
def lbRowsOf (n cols : Int) : Int :=
  let q := Int.fdiv n cols
  if cols * q < n then q + 1 else q

/-- One non-overflowing iteration of the `for` loop body
(cli.py:627-635): clip the item to `max_w - 3` columns, append it,
and recompute `wl`, `cols` and `rows`. -/
def lbStep (max_w : Int) (acc : LBAcc) (item : List Char) : LBAcc :=
  let item' := pySliceTo item (max_w - 3)
  let v_items := acc.v_items ++ [item']
  let wl := max ((item'.length : Int)) acc.wl
  let cols := lbColsOf max_w wl
  let rows := lbRowsOf ((v_items.length : Int)) cols
  ⟨v_items, rows, cols, wl, acc.v_index, acc.trunc⟩

/-- The `'...'` continuation marker. -/
def threeDots : List Char := ['.', '.', '.']

/-- The `for i, item in enumerate(self.items)` loop of `_prepare_v_items`
(cli.py:627-647).  The `Bool` in the result is `true` when the loop ran to
completion (so the `for`-`else` clause applies) and `false` on `break`.
When the overflow check (line 637) fires, the `rows` just computed is
replaced by `max_h - (ho - 1)`; then either the tail of `v_items` is
replaced by the marker and the loop breaks (selection left of the cut), or
`v_items` is re-seeded with `['...', items[i-1], items[i]]`, `v_index` is
shifted back by `len(v_items) - 3`, and the loop continues.  The
`items[i-1]` / `items[i]` subscripts are always in range while the loop is
running (`i` enumerates `items`, and `items[-1]` is Python's last
element), so `.getD []` is never the error case. -/
def lbLoop (items : List (List Char)) (max_w max_h ho idx0 : Int) :
    List (List Char) → Nat → LBAcc → LBAcc × Bool
  | [], _, acc => (acc, true)
  | item :: rest, i, acc =>
      let s := lbStep max_w acc item
      if s.rows + ho - 1 ≥ max_h then
        let rows' := max_h - (ho - 1)
        if idx0 < (i : Int) - 1 then
          (⟨s.v_items.dropLast.dropLast ++ [threeDots], rows', s.cols, s.wl,
            acc.v_index, true⟩, false)
        else
          lbLoop items max_w max_h ho idx0 rest (i + 1)
            ⟨[threeDots, (pyGet items ((i : Int) - 1)).getD [],
              (pyGet items (i : Int)).getD []],
             rows', s.cols, s.wl, acc.v_index - ((s.v_items.length : Int) - 3), true⟩
      else
        lbLoop items max_w max_h ho idx0 rest (i + 1) s

/-- `ListBox._prepare_v_items` (cli.py:616-662), without the final window
width `self.w` (not part of the grid-sizing claim).  Locals start as
`v_items = []`, `rows = 0`, `cols = 0`, `wl = 1`, `v_index = self.index`.
On normal loop completion the `for`-`else` clause runs
(`rows += 1; self.v_index = v_index % (len(self.v_items) + 1)`), and the
stored cell width is `self.wl = wl + 1` either way. -/
def ListBox.prepare_v_items (items : List (List Char))
    (max_w max_h ho idx0 : Int) : LBAcc :=
  let r := lbLoop items max_w max_h ho idx0 items 0 ⟨[], 0, 0, 1, idx0, false⟩
  if r.2 then
    { r.1 with rows := r.1.rows + 1, wl := r.1.wl + 1,
               v_index := r.1.v_index % ((r.1.v_items.length : Int) + 1) }
  else
    { r.1 with wl := r.1.wl + 1 }

/-- C9 (counterexample): three two-character candidates in a popup of
width 10 with no vertical pressure (`max_h = 100`, header offset 1) fit
without truncation and give `cols = 2`, cell width `wl = 3` — but the
stored row count is `3`, not `ceil(3 / 2) = 2`: the `for`-`else` clause
adds one extra row beyond the candidate grid. -/
theorem prepare_v_items_rows_not_ceil :
    (ListBox.prepare_v_items [['a', 'a'], ['b', 'b'], ['c', 'c']] 10 100 1 0).trunc
        = false
    ∧ (ListBox.prepare_v_items [['a', 'a'], ['b', 'b'], ['c', 'c']] 10 100 1 0).cols = 2
    ∧ (ListBox.prepare_v_items [['a', 'a'], ['b', 'b'], ['c', 'c']] 10 100 1 0).v_items.length
        = 3
    ∧ (ListBox.prepare_v_items [['a', 'a'], ['b', 'b'], ['c', 'c']] 10 100 1 0).wl = 3
    ∧ (ListBox.prepare_v_items [['a', 'a'], ['b', 'b'], ['c', 'c']] 10 100 1 0).rows = 3
    ∧ (ListBox.prepare_v_items [['a', 'a'], ['b', 'b'], ['c', 'c']] 10 100 1 0).rows ≠ 2 := by
  refine ⟨?_, ?_, ?_, ?_, ?_, ?_⟩ <;> decide

/-- The straight-line (never-overflowing) residue of the loop: every
iteration takes the plain `lbStep` branch. -/
def lbFold (max_w : Int) : List (List Char) → LBAcc → LBAcc
  | [], acc => acc
  | item :: rest, acc => lbFold max_w rest (lbStep max_w acc item)

/-- `wl` accumulated over the whole candidate list from its initial
value 1 (cli.py:623, 630): the maximum clipped item length, floored at 1. -/
def maxItemLen (max_w : Int) (items : List (List Char)) : Int :=
  items.foldl (fun a it => max ((pySliceTo it (max_w - 3)).length : Int) a) 1

theorem foldl_max_ge_init {α : Type} (f : α → Int) (l : List α) :
    ∀ init : Int, init ≤ l.foldl (fun a x => max (f x) a) init := by
  induction l with
  | nil =>
    intro init
    simp
  | cons x t ih =>
    intro init
    rw [List.foldl_cons]
    exact le_trans (le_max_right (f x) init) (ih _)

theorem foldl_max_le_mem {α : Type} (f : α → Int) (l : List α) :
    ∀ (init : Int) (x : α), x ∈ l → f x ≤ l.foldl (fun a y => max (f y) a) init := by
  induction l with
  | nil =>
    intro init x hx
    cases hx
  | cons y t ih =>
    intro init x hx
    rw [List.foldl_cons]
    rcases List.mem_cons.mp hx with h | h
    · subst h
      exact le_trans (le_max_left (f x) init) (foldl_max_ge_init f t _)
    · exact ih _ x h

theorem foldl_max_attained {α : Type} (f : α → Int) (l : List α) :
    ∀ init : Int,
      l.foldl (fun a y => max (f y) a) init = init
      ∨ ∃ x ∈ l, l.foldl (fun a y => max (f y) a) init = f x := by
  induction l with
  | nil =>
    intro init
    exact Or.inl rfl
  | cons y t ih =>
    intro init
    rw [List.foldl_cons]
    rcases ih (max (f y) init) with h | ⟨x, hx, hfx⟩
    · rcases le_total (f y) init with hle | hle
      · left
        rw [h, max_eq_right hle]
      · right
        exact ⟨y, List.mem_cons_self y t, by rw [h, max_eq_left hle]⟩
    · right
      exact ⟨x, List.mem_cons_of_mem y hx, hfx⟩

/-- Once a truncation branch has fired, the flag stays set. -/
theorem lbLoop_trunc_mono (items : List (List Char)) (max_w max_h ho idx0 : Int) :
    ∀ (rest : List (List Char)) (i : Nat) (acc : LBAcc), acc.trunc = true →
      ((lbLoop items max_w max_h ho idx0 rest i acc).1).trunc = true := by
  intro rest
  induction rest with
  | nil =>
    intro i acc h
    simpa [lbLoop] using h
  | cons item rest ih =>
    intro i acc h
    rw [lbLoop]
    by_cases hov : (lbStep max_w acc item).rows + ho - 1 ≥ max_h
    · rw [if_pos hov]
      by_cases hsel : idx0 < (i : Int) - 1
      · rw [if_pos hsel]
      · rw [if_neg hsel]
        exact ih _ _ rfl
    · rw [if_neg hov]
      apply ih
      simpa [lbStep] using h

/-- A run that ends with the flag clear never entered a truncation branch:
it is the plain fold, finishing normally. -/
theorem lbLoop_no_trunc (items : List (List Char)) (max_w max_h ho idx0 : Int) :
    ∀ (rest : List (List Char)) (i : Nat) (acc : LBAcc),
      ((lbLoop items max_w max_h ho idx0 rest i acc).1).trunc = false →
      lbLoop items max_w max_h ho idx0 rest i acc = (lbFold max_w rest acc, true) := by
  intro rest
  induction rest with
  | nil =>
    intro i acc h
    rw [lbLoop, lbFold]
  | cons item rest ih =>
    intro i acc h
    rw [lbLoop] at h ⊢
    rw [lbFold]
    by_cases hov : (lbStep max_w acc item).rows + ho - 1 ≥ max_h
    · exfalso
      rw [if_pos hov] at h
      by_cases hsel : idx0 < (i : Int) - 1
      · rw [if_pos hsel] at h
        simp at h
      · rw [if_neg hsel] at h
        have hmono := lbLoop_trunc_mono items max_w max_h ho idx0 rest (i + 1)
          ⟨[threeDots, (pyGet items ((i : Int) - 1)).getD [],
            (pyGet items (i : Int)).getD []],
           max_h - (ho - 1), (lbStep max_w acc item).cols, (lbStep max_w acc item).wl,
           acc.v_index - (((lbStep max_w acc item).v_items.length : Int) - 3), true⟩ rfl
        rw [hmono] at h
        cases h
    · rw [if_neg hov] at h ⊢
      exact ih _ _ h

/-- `cols` bridge: with at least two columns of width available and a
non-negative `wl`, the code's `(… // …) or 1` equals the specified
`max(1, floor((max_w - 2) / (wl + 1)))`. -/
theorem lbColsOf_eq_max (max_w wl : Int) (h2 : 2 ≤ max_w) (hwl : 0 ≤ wl) :
    lbColsOf max_w wl = max 1 ((max_w - 2) / (wl + 1)) := by
  unfold lbColsOf
  rw [Int.fdiv_eq_ediv _ (by omega)]
  have hge : 0 ≤ (max_w - 2) / (wl + 1) := Int.ediv_nonneg (by omega) (by omega)
  by_cases hz : (max_w - 2) / (wl + 1) = 0
  · rw [if_pos hz, hz]
    simp
  · rw [if_neg hz]
    omega

/-- `rows` bridge: for a non-negative count and a positive column count,
the code's conditional bump equals the ceiling formula
`(n + cols - 1) // cols`. -/
theorem lbRowsOf_eq_ceil (n c : Int) (hc : 0 < c) :
    lbRowsOf n c = (n + c - 1) / c := by
  unfold lbRowsOf
  rw [Int.fdiv_eq_ediv _ (le_of_lt hc)]
  have hdm := Int.ediv_add_emod n c
  have hr0 : 0 ≤ n % c := Int.emod_nonneg n (by omega)
  have hrc : n % c < c := Int.emod_lt_of_pos n hc
  by_cases hrz : n % c = 0
  · rw [if_neg (by omega)]
    have hn' : n + c - 1 = (c - 1) + (n / c) * c := by
      linear_combination -hdm + hrz
    rw [hn', Int.add_mul_ediv_right _ _ (by omega : c ≠ 0)]
    have hz : (c - 1) / c = 0 := Int.ediv_eq_zero_of_lt (by omega) (by omega)
    omega
  · rw [if_pos (by omega)]
    have hn' : n + c - 1 = (n % c - 1) + (n / c + 1) * c := by
      linear_combination -hdm
    rw [hn', Int.add_mul_ediv_right _ _ (by omega : c ≠ 0)]
    have hz : (n % c - 1) / c = 0 := Int.ediv_eq_zero_of_lt (by omega) (by omega)
    omega

/-- Closed form of the straight-line run: items are clipped and appended,
`wl` is the running maximum of clipped lengths, and `cols` / `rows` are
the values computed on the last iteration (hence from the final `wl` and
the final item count). -/
theorem lbFold_stats (max_w : Int) :
    ∀ (rest : List (List Char)) (acc : LBAcc), rest ≠ [] →
      lbFold max_w rest acc =
        { v_items := acc.v_items ++ rest.map (fun it => pySliceTo it (max_w - 3)),
          rows := lbRowsOf (((acc.v_items.length + rest.length : Nat) : Int))
                    (lbColsOf max_w
                      (rest.foldl (fun a it =>
                        max ((pySliceTo it (max_w - 3)).length : Int) a) acc.wl)),
          cols := lbColsOf max_w
                    (rest.foldl (fun a it =>
                      max ((pySliceTo it (max_w - 3)).length : Int) a) acc.wl),
          wl := rest.foldl (fun a it =>
                  max ((pySliceTo it (max_w - 3)).length : Int) a) acc.wl,
          v_index := acc.v_index,
          trunc := acc.trunc } := by
  intro rest
  induction rest with
  | nil =>
    intro acc h
    exact absurd rfl h
  | cons item rest ih =>
    intro acc hne
    rw [lbFold]
    by_cases hr : rest = []
    · subst hr
      rw [lbFold]
      simp only [lbStep, List.map_cons, List.map_nil, List.foldl_cons, List.foldl_nil,
        List.length_append, List.length_cons, List.length_nil, LBAcc.mk.injEq]
    · rw [ih (lbStep max_w acc item) hr]
      simp only [lbStep, List.map_cons, List.foldl_cons, List.length_append,
        List.length_cons, List.length_nil, LBAcc.mk.injEq]
      refine ⟨?_, ?_, ?_, ?_, ?_, ?_⟩ <;>
        first
        | trivial
        | (rw [List.append_assoc]; rfl)
        | (congr 2
           omega)

/-- C9 (amended): for a candidate list laid out without truncation (the
overflow branch never fires) in a popup at least 2 cells wide, the stored
cell width is one plus the maximum clipped item length (`maxItemLen`, the
running maximum floored at its initial value 1 — so exactly "one plus the
maximum length of the visible items" whenever some visible item is
non-empty, as the bound/attainment conjuncts state), the column count is
`max(1, floor((max_w - 2) / wl))`, and the stored row count is
`ceil(count / cols)` **plus one**: the `for`-`else` clause adds an extra
row beyond the candidate grid. -/
theorem prepare_v_items_grid (items : List (List Char)) (max_w max_h ho idx0 : Int)
    (hne : items ≠ []) (hw : 2 ≤ max_w)
    (htr : (ListBox.prepare_v_items items max_w max_h ho idx0).trunc = false) :
    (ListBox.prepare_v_items items max_w max_h ho idx0).v_items
        = items.map (fun it => pySliceTo it (max_w - 3))
    ∧ (ListBox.prepare_v_items items max_w max_h ho idx0).wl
        = maxItemLen max_w items + 1
    ∧ (∀ it ∈ items, ((pySliceTo it (max_w - 3)).length : Int) + 1
          ≤ (ListBox.prepare_v_items items max_w max_h ho idx0).wl)
    ∧ ((∃ it0 ∈ items, 1 ≤ ((pySliceTo it0 (max_w - 3)).length : Int)) →
        ∃ it ∈ items, (ListBox.prepare_v_items items max_w max_h ho idx0).wl
            = ((pySliceTo it (max_w - 3)).length : Int) + 1)
    ∧ (ListBox.prepare_v_items items max_w max_h ho idx0).cols
        = max 1 ((max_w - 2) / (maxItemLen max_w items + 1))
    ∧ (ListBox.prepare_v_items items max_w max_h ho idx0).rows
        = ((items.length : Int)
            + (ListBox.prepare_v_items items max_w max_h ho idx0).cols - 1)
          / (ListBox.prepare_v_items items max_w max_h ho idx0).cols + 1 := by
  have hkey : ((lbLoop items max_w max_h ho idx0 items 0
      ⟨[], 0, 0, 1, idx0, false⟩).1).trunc = false := by
    unfold ListBox.prepare_v_items at htr
    by_cases h2 : (lbLoop items max_w max_h ho idx0 items 0 ⟨[], 0, 0, 1, idx0, false⟩).2
    · simp only [h2, if_true] at htr
      exact htr
    · simp only [h2, if_false, Bool.false_eq_true] at htr
      exact htr
  have hloop := lbLoop_no_trunc items max_w max_h ho idx0 items 0
    ⟨[], 0, 0, 1, idx0, false⟩ hkey
  have hstats := lbFold_stats max_w items ⟨[], 0, 0, 1, idx0, false⟩ hne
  have hprep : ListBox.prepare_v_items items max_w max_h ho idx0
      = { v_items := items.map (fun it => pySliceTo it (max_w - 3)),
          rows := lbRowsOf ((items.length : Int))
                    (lbColsOf max_w (maxItemLen max_w items)) + 1,
          cols := lbColsOf max_w (maxItemLen max_w items),
          wl := maxItemLen max_w items + 1,
          v_index := idx0 % (((items.map (fun it => pySliceTo it (max_w - 3))).length : Int) + 1),
          trunc := false } := by
    unfold ListBox.prepare_v_items
    rw [hloop]
    simp only [if_true]
    rw [hstats]
    simp only [List.nil_append, List.length_nil, Nat.zero_add, maxItemLen]
  have hwl1 : 1 ≤ maxItemLen max_w items := by
    unfold maxItemLen
    exact foldl_max_ge_init (fun it => ((pySliceTo it (max_w - 3)).length : Int)) items 1
  have hcols : lbColsOf max_w (maxItemLen max_w items)
      = max 1 ((max_w - 2) / (maxItemLen max_w items + 1)) :=
    lbColsOf_eq_max max_w (maxItemLen max_w items) hw (by omega)
  have hcpos : 0 < lbColsOf max_w (maxItemLen max_w items) := by
    rw [hcols]
    omega
  refine ⟨?_, ?_, ?_, ?_, ?_, ?_⟩
  · rw [hprep]
  · rw [hprep]
  · intro it hit
    rw [hprep]
    have := foldl_max_le_mem (fun it => ((pySliceTo it (max_w - 3)).length : Int))
      items 1 it hit
    unfold maxItemLen
    simp only at this ⊢
    omega
  · rintro ⟨it0, hit0, h1⟩
    rw [hprep]
    rcases foldl_max_attained (fun it => ((pySliceTo it (max_w - 3)).length : Int))
        items 1 with hinit | ⟨x, hx, hfx⟩
    · refine ⟨it0, hit0, ?_⟩
      have hub := foldl_max_le_mem (fun it => ((pySliceTo it (max_w - 3)).length : Int))
        items 1 it0 hit0
      unfold maxItemLen
      simp only at hinit hub ⊢
      omega
    · refine ⟨x, hx, ?_⟩
      unfold maxItemLen
      simp only at hfx ⊢
      omega
  · rw [hprep]
    exact hcols
  · rw [hprep]
    simp only
    rw [lbRowsOf_eq_ceil _ _ hcpos]

/-- Witness for C9's amended theorem at a concrete input: candidates
`["aa", "b"]` in a 10-wide popup, no truncation. -/
theorem prepare_v_items_grid_witness :
    (([['a', 'a'], ['b']] : List (List Char)) ≠ []
      ∧ (2 : Int) ≤ 10
      ∧ (ListBox.prepare_v_items [['a', 'a'], ['b']] 10 100 1 0).trunc = false)
    ∧ (ListBox.prepare_v_items [['a', 'a'], ['b']] 10 100 1 0).cols
        = max 1 ((10 - 2) / (maxItemLen 10 [['a', 'a'], ['b']] + 1))
    ∧ (ListBox.prepare_v_items [['a', 'a'], ['b']] 10 100 1 0).rows
        = ((2 : Int) + (ListBox.prepare_v_items [['a', 'a'], ['b']] 10 100 1 0).cols - 1)
          / (ListBox.prepare_v_items [['a', 'a'], ['b']] 10 100 1 0).cols + 1 :=
  ⟨⟨by decide, by decide, by decide⟩,
   (prepare_v_items_grid [['a', 'a'], ['b']] 10 100 1 0 (by decide) (by decide)
      (by decide)).2.2.2.2.1,
   (prepare_v_items_grid [['a', 'a'], ['b']] 10 100 1 0 (by decide) (by decide)
      (by decide)).2.2.2.2.2⟩
